import Mathlib

/-!
Shallow embedding of the capture-to-spectrum pipeline of the `chryth`
repository (src/src/util.rs, src/src/main.rs, src/examples/record.rs).

Modelling conventions:
* Raw bytes are `Nat` (values < 256 where it matters; the conversion only
  ever reads two bytes and combines them, so no range invariant is needed).
* Samples are `Int`: the code stores `i16::from_ne_bytes(..) as f32`, and
  the `i16 → f32` widening is exact and injective, so the integer value of
  the decoded `i16` is a faithful carrier.  All supported targets of the
  `windows` crate are little-endian, so `from_ne_bytes` is modelled as
  little-endian byte order.
* A Rust panic (out-of-bounds index) is modelled as `Option.none`;
  successfully computed values are `some`.
* The external FFT library (`spectrum_analyzer`) is kept abstract: the
  composite of `hann_window`, `samples_fft_to_spectrum` and
  `freq_val_exact` is a parameter `spectrum : List Int → Nat → Nat → Int`
  (window, sample rate, requested frequency ↦ value).  The repository's
  own code only builds the 69-point output shape on top of that lookup.
-/

namespace Chryth

/-- The fixed analysis window size: `const SIZE: usize = 2048;` in util.rs. -/
def SIZE : Nat := 2048

/-- Fuel-indexed worker for `chunksOf`: peels chunks of `n` elements off the
front while fuel lasts.  The fuel is instantiated with the list length,
which is enough fuel whenever `n > 0` since every step consumes at least
one element. -/
def chunksOfFuel (n : Nat) : Nat → List α → List (List α)
  | 0, _ => []
  | _ + 1, [] => []
  | fuel + 1, x :: xs =>
    ((x :: xs).take n) :: chunksOfFuel n fuel ((x :: xs).drop n)

/-- Rust `slice::chunks(n)`: splits a list into consecutive chunks of `n`
elements, the last chunk possibly shorter.  `n = 0` panics in Rust and is
unreachable here (`block_align > 0`); it is mapped to `[]`. -/
def chunksOf (n : Nat) (l : List α) : List (List α) :=
  match n with
  | 0 => []
  | m + 1 => chunksOfFuel (m + 1) l.length l

/-- `i16::from_ne_bytes([b0, b1])` on a little-endian target: the two bytes
combined little-endian, reinterpreted as a signed 16-bit integer. -/
def i16FromBytes (b0 b1 : Nat) : Int :=
  let v : Nat := b0 % 256 + 256 * (b1 % 256)
  if v < 32768 then (v : Int) else (v : Int) - 65536

/-- One frame to one sample: `|frame| i16::from_ne_bytes([frame[0], frame[1]]) as f32`.
The unchecked indexing `frame[0]` / `frame[1]` panics (`none`) when the frame
has fewer than two bytes. -/
def frameToSample (frame : List Nat) : Option Int :=
  match frame.get? 0, frame.get? 1 with
  | some b0, some b1 => some (i16FromBytes b0 b1)
  | _, _ => none

/-- Maps `frameToSample` over the frames, propagating a panic. -/
def ingestFrames : List (List Nat) → Option (List Int)
  | [] => some []
  | f :: fs => do
    let s ← frameToSample f
    let rest ← ingestFrames fs
    return s :: rest

/-- The per-chunk ingestion of `App::on_tick` (util.rs lines 62-66):
`buffer.chunks(block_align).map(|frame| i16::from_ne_bytes([frame[0], frame[1]]) as f32)`,
appended to the sample queue by the caller. -/
def ingest (blockAlign : Nat) (chunk : List Nat) : Option (List Int) :=
  ingestFrames (chunksOf blockAlign chunk)

/-- `VecDeque::drain(a..b)`: returns (drained range, remaining deque).
The elements before index `a` and from index `b` on remain. -/
def drainRange (l : List α) (a b : Nat) : List α × List α :=
  ((l.drop a).take (b - a), l.take a ++ l.drop b)

/-- The window-extraction step of `App::on_tick` (util.rs lines 68-72):
if fewer than `SIZE` samples are queued, nothing is extracted; otherwise
`skips = len - SIZE` and the range `skips..skips+SIZE` is drained.
Returns (window, remaining queue). -/
def extractWindow (samples : List Int) : Option (List Int × List Int) :=
  if samples.length < SIZE then none
  else
    let skips := samples.length - SIZE
    some (drainRange samples skips (skips + SIZE))

/-- The published 69-point spectrum (util.rs lines 82-86):
`(1..70).map(|k| k*200).map(|f| (f, res.freq_val_exact(f).val().powi(2)))`,
with the external spectrum lookup abstracted as `lookup`. -/
def analyzeData (lookup : Nat → Int) : List (Nat × Int) :=
  (List.range' 1 69 1).map (fun k => (k * 200, (lookup (k * 200)) ^ 2))

/-- The mutable state of `App` that the tick touches: the sample queue
(`samples: VecDeque<f32>`) and the published output (`data: Vec<(f64,f64)>`). -/
structure AppState where
  samples : List Int
  data : List (Nat × Int)
deriving DecidableEq, Repr

/-- The capture-draining loop of `App::on_tick` (util.rs lines 61-67):
`while let Some(buffer) = client.get_buffer() { samples.extend(...) }`.
The successive non-empty poll results are given as `chunksIn`; the return
value is the concatenation of all decoded samples, or a panic (`none`). -/
def drainChunks (blockAlign : Nat) : List (List Nat) → Option (List Int)
  | [] => some []
  | c :: cs => do
    let s ← ingest blockAlign c
    let rest ← drainChunks blockAlign cs
    return s ++ rest

/-- `App::on_tick` (util.rs lines 59-92).  `spectrum` abstracts the external
hann-window + FFT + `freq_val_exact` composite (window, sample rate,
frequency ↦ value); `chunksIn` is the sequence of buffers the drain loop
receives before `get_buffer` returns `None`.  Returns the new state, or
`none` for a panic during ingestion. -/
def onTick (spectrum : List Int → Nat → Nat → Int) (blockAlign sampleRate : Nat)
    (chunksIn : List (List Nat)) (app : AppState) : Option AppState :=
  match drainChunks blockAlign chunksIn with
  | none => none
  | some newSamples =>
    let samples := app.samples ++ newSamples
    if samples.length < SIZE then
      some { app with samples := samples }
    else
      let skips := samples.length - SIZE
      let p := drainRange samples skips (skips + SIZE)
      some { samples := p.2, data := analyzeData (spectrum p.1 sampleRate) }

/-! ### Capture session (`Client::get_buffer`, util.rs lines 151-184) -/

/-- The observable state of the audio device for one poll: the frame count
`GetCurrentPadding` reports, the frame count `GetBuffer` stores into
`stored_frames`, and the device memory `buffer_ptr` points into
(byte address ↦ byte value). -/
structure Device where
  padding : Nat
  stored : Nat
  mem : Nat → Nat

/-- Events of one poll against the device interface, in order. -/
inductive DevEv
  | getCurrentPadding (frames : Nat)
  | getBuffer (storedFrames : Nat)
  | copy (bytes : List Nat)
  | releaseBuffer (frames : Nat)
deriving DecidableEq, Repr

/-- `Client::get_buffer`: polls `GetCurrentPadding`; on zero frames returns
`None` at once.  Otherwise acquires the device buffer via `GetBuffer`,
clones `stored_frames * block_align` bytes out of the device memory into an
owned buffer, and only then calls `ReleaseBuffer(stored_frames)`.  Returns
the poll result together with the trace of device-interface events. -/
def get_buffer (blockAlign : Nat) (d : Device) : Option (List Nat) × List DevEv :=
  if d.padding = 0 then
    (none, [DevEv.getCurrentPadding 0])
  else
    let bufferLength := d.stored * blockAlign
    let buffer := (List.range bufferLength).map d.mem
    (some buffer,
      [DevEv.getCurrentPadding d.padding, DevEv.getBuffer d.stored,
       DevEv.copy buffer, DevEv.releaseBuffer d.stored])

/-- Total frames acquired by `GetBuffer` events in a trace. -/
def acquiredFrames : List DevEv → Nat
  | [] => 0
  | DevEv.getBuffer n :: es => n + acquiredFrames es
  | _ :: es => acquiredFrames es

/-- Total frames handed back by `ReleaseBuffer` events in a trace. -/
def releasedFrames : List DevEv → Nat
  | [] => 0
  | DevEv.releaseBuffer n :: es => n + releasedFrames es
  | _ :: es => releasedFrames es

/-- Number of `GetBuffer` acquisitions in a trace. -/
def acquireCount : List DevEv → Nat
  | [] => 0
  | DevEv.getBuffer _ :: es => 1 + acquireCount es
  | _ :: es => acquireCount es

/-- `true` when every `ReleaseBuffer` event is preceded (strictly earlier in
the trace) by a `copy` event: the owned copy happens before release. -/
def copiesPrecedeReleases : List DevEv → Bool → Bool
  | [], _ => true
  | DevEv.copy _ :: es, _ => copiesPrecedeReleases es true
  | DevEv.releaseBuffer _ :: es, seen => seen && copiesPrecedeReleases es seen
  | _ :: es, seen => copiesPrecedeReleases es seen

/-! ### The sibling recording tool (`examples/record.rs`) -/

/-- The negotiated audio format (`WaveFormatEx`, identical in util.rs and
record.rs): all seven fields of the Windows `WAVEFORMATEX`. -/
structure WaveFormatEx where
  format_tag : Nat
  channels : Nat
  samples_per_sec : Nat
  avg_bytes_per_sec : Nat
  block_align : Nat
  bits_per_sample : Nat
  size : Nat
deriving DecidableEq, Repr

/-- The WAV header fields written by record.rs (`wav::Header::new`). -/
structure WavHeader where
  format_tag : Nat
  channels : Nat
  sample_rate : Nat
  bits_per_sample : Nat
deriving DecidableEq, Repr

/-- `wav::WAV_FORMAT_IEEE_FLOAT = 0x0003` (the standard IEEE-float tag). -/
def WAV_FORMAT_IEEE_FLOAT : Nat := 3

/-- Header construction in record.rs `main` (lines 65-78):
`Header::new(wav::WAV_FORMAT_IEEE_FLOAT, channels, samples_per_sec, bits_per_sample)`.
The negotiated `format_tag` is ignored (the source comments that it skips
`WaveFormatEx::wave_format`); the other three fields come from the format. -/
def makeHeader (wf : WaveFormatEx) : WavHeader :=
  { format_tag := WAV_FORMAT_IEEE_FLOAT
    channels := wf.channels
    sample_rate := wf.samples_per_sec
    bits_per_sample := wf.bits_per_sample }

/-- The payload accumulation of `capture_audio` (record.rs lines 133-165):
`buffer_all.extend(buffer.iter())` once per data-bearing poll, in arrival
order. -/
def capturePayload (chunks : List (List Nat)) : List Nat :=
  chunks.foldl (fun acc c => acc ++ c) []

/-- Events of one iteration of the `capture_audio` polling loop. -/
inductive CapEv
  | poll (frames : Nat)
  | acquire (frames : Nat)
  | store (bytes : List Nat)
  | release (frames : Nat)
  | sleepMicros (us : Nat)
deriving DecidableEq, Repr

/-- One iteration of the polling loop in `capture_audio` (record.rs lines
136-165): `GetCurrentPadding`; if zero frames, `continue` — the iteration
ends with no further calls and, in particular, no sleep.  Otherwise
`GetBuffer`, extend `buffer_all`, `ReleaseBuffer`, then
`thread::sleep(Duration::from_micros(100))`. -/
def captureIteration (blockAlign : Nat) (d : Device) : List CapEv :=
  if d.padding = 0 then
    [CapEv.poll 0]
  else
    let bytes := (List.range (d.stored * blockAlign)).map d.mem
    [CapEv.poll d.padding, CapEv.acquire d.stored, CapEv.store bytes,
     CapEv.release d.stored, CapEv.sleepMicros 100]

/-- Written from the spec's words, for comparison against `ingest` (refinement):
"`ingest` appends exactly `length/block_align` samples, in order", where each
sample is "the first two bytes of each frame as a little-endian signed 16-bit
sample".  The `i`-th appended sample therefore comes from bytes `i*block_align`
and `i*block_align + 1` of the chunk. -/
def ingestSpec (blockAlign : Nat) (chunk : List Nat) : List Int :=
  (List.range (chunk.length / blockAlign)).map
    (fun i => i16FromBytes (chunk.getD (i * blockAlign) 0)
      (chunk.getD (i * blockAlign + 1) 0))

/-! ### Helper lemmas -/

theorem chunksOfFuel_congr (n : Nat) (hn : 0 < n) :
    ∀ (f₁ : Nat) (l : List α) (f₂ : Nat), l.length ≤ f₁ → l.length ≤ f₂ →
      chunksOfFuel n f₁ l = chunksOfFuel n f₂ l := by
  intro f₁
  induction f₁ with
  | zero =>
    intro l f₂ h1 h2
    have : l = [] := by
      cases l with
      | nil => rfl
      | cons x xs => simp at h1
    subst this
    cases f₂ <;> rfl
  | succ f ih =>
    intro l f₂ h1 h2
    cases l with
    | nil => cases f₂ <;> rfl
    | cons x xs =>
      cases f₂ with
      | zero => simp at h2
      | succ f₂ =>
        show ((x :: xs).take n) :: chunksOfFuel n f ((x :: xs).drop n) =
          ((x :: xs).take n) :: chunksOfFuel n f₂ ((x :: xs).drop n)
        congr 1
        apply ih
        · rw [List.length_drop]
          simp only [List.length_cons] at h1 ⊢
          omega
        · rw [List.length_drop]
          simp only [List.length_cons] at h2 ⊢
          omega

theorem chunksOf_nil (n : Nat) : chunksOf n ([] : List α) = [] := by
  cases n <;> rfl

theorem chunksOf_cons (n : Nat) (l : List α) (hn : 0 < n) (hl : l ≠ []) :
    chunksOf n l = l.take n :: chunksOf n (l.drop n) := by
  match n, l with
  | 0, _ => exact absurd hn (by omega)
  | m + 1, x :: xs =>
    show chunksOfFuel (m + 1) (x :: xs).length (x :: xs) = _
    rw [List.length_cons, chunksOfFuel]
    congr 1
    show chunksOfFuel (m + 1) xs.length ((x :: xs).drop (m + 1)) =
      chunksOf (m + 1) ((x :: xs).drop (m + 1))
    rw [chunksOf]
    apply chunksOfFuel_congr (m + 1) (by omega)
    · rw [List.length_drop]
      simp only [List.length_cons]
      omega
    · rfl

theorem frameToSample_of_two (f : List Nat) (h : 2 ≤ f.length) :
    frameToSample f = some (i16FromBytes (f.getD 0 0) (f.getD 1 0)) := by
  match f with
  | [] => simp at h
  | [_] => simp at h
  | a :: b :: _ => rfl

theorem frameToSample_singleton (a : Nat) : frameToSample [a] = none := rfl

theorem getD_drop (l : List Nat) (n j : Nat) :
    (l.drop n).getD j 0 = l.getD (n + j) 0 := by
  simp [List.getD_eq_getElem?_getD, List.getElem?_drop]

theorem getD_take (l : List Nat) (n j : Nat) (h : j < n) :
    (l.take n).getD j 0 = l.getD j 0 := by
  simp [List.getD_eq_getElem?_getD, List.getElem?_take_of_lt h]

theorem ingestSpec_of_lt (blockAlign : Nat) (l : List Nat)
    (h : l.length < blockAlign) : ingestSpec blockAlign l = [] := by
  simp [ingestSpec, Nat.div_eq_of_lt h]

theorem ingestSpec_cons (blockAlign : Nat) (l : List Nat) (hbA : 0 < blockAlign)
    (h : blockAlign ≤ l.length) :
    ingestSpec blockAlign l =
      i16FromBytes (l.getD 0 0) (l.getD 1 0) ::
        ingestSpec blockAlign (l.drop blockAlign) := by
  unfold ingestSpec
  rw [List.length_drop, Nat.div_eq_sub_div hbA h, List.range_succ_eq_map]
  simp only [List.map_cons, List.map_map, Nat.zero_mul, Nat.zero_add]
  congr 1
  refine List.map_congr_left (fun i _ => ?_)
  simp only [Function.comp_apply, getD_drop]
  congr 2 <;> simp [Nat.succ_eq_add_one] <;> ring

theorem ingest_full (blockAlign : Nat) (hbA : 2 ≤ blockAlign) :
    ∀ (k : Nat) (l : List Nat), l.length = k * blockAlign →
      ingest blockAlign l = some (ingestSpec blockAlign l) := by
  intro k
  induction k with
  | zero =>
    intro l hl
    simp only [Nat.zero_mul, List.length_eq_zero] at hl
    subst hl
    simp [ingest, chunksOf_nil, ingestFrames, ingestSpec]
  | succ k ih =>
    intro l hl
    have hlen : blockAlign ≤ l.length := by
      rw [hl]; calc blockAlign = 1 * blockAlign := by ring
        _ ≤ (k + 1) * blockAlign := Nat.mul_le_mul_right _ (by omega)
    have hne : l ≠ [] := by
      intro h; rw [h] at hlen; simp at hlen; omega
    rw [ingest, chunksOf_cons blockAlign l (by omega) hne]
    have htk : 2 ≤ (l.take blockAlign).length := by
      rw [List.length_take]; omega
    rw [ingestFrames, frameToSample_of_two _ htk,
      getD_take _ _ _ (by omega), getD_take _ _ _ (by omega)]
    have ihd : ingest blockAlign (l.drop blockAlign) =
        some (ingestSpec blockAlign (l.drop blockAlign)) := by
      refine ih (l.drop blockAlign) ?_
      rw [List.length_drop, hl]; ring_nf; omega
    rw [ingest] at ihd
    rw [ihd, ingestSpec_cons blockAlign l (by omega) hlen]
    rfl

theorem ingest_partial (blockAlign : Nat) (hbA : 2 ≤ blockAlign)
    (r : Nat) (hr2 : 2 ≤ r) (hrb : r < blockAlign) :
    ∀ (k : Nat) (l : List Nat), l.length = k * blockAlign + r →
      ingest blockAlign l =
        some (ingestSpec blockAlign l ++
          [i16FromBytes (l.getD (k * blockAlign) 0)
            (l.getD (k * blockAlign + 1) 0)]) := by
  intro k
  induction k with
  | zero =>
    intro l hl
    simp only [Nat.zero_mul, Nat.zero_add] at hl ⊢
    have hne : l ≠ [] := by
      intro h; rw [h] at hl; simp at hl; omega
    rw [ingest, chunksOf_cons blockAlign l (by omega) hne,
      List.take_of_length_le (by omega), List.drop_eq_nil_of_le (by omega),
      chunksOf_nil, ingestFrames, frameToSample_of_two _ (by omega)]
    rw [ingestSpec_of_lt blockAlign l (by omega)]
    rfl
  | succ k ih =>
    intro l hl
    have hlen : blockAlign ≤ l.length := by rw [hl]; nlinarith
    have hne : l ≠ [] := by
      intro h; rw [h] at hlen; simp at hlen; omega
    rw [ingest, chunksOf_cons blockAlign l (by omega) hne]
    have htk : 2 ≤ (l.take blockAlign).length := by
      rw [List.length_take]; omega
    rw [ingestFrames, frameToSample_of_two _ htk,
      getD_take _ _ _ (by omega), getD_take _ _ _ (by omega)]
    have ihd : ingest blockAlign (l.drop blockAlign) =
        some (ingestSpec blockAlign (l.drop blockAlign) ++
          [i16FromBytes ((l.drop blockAlign).getD (k * blockAlign) 0)
            ((l.drop blockAlign).getD (k * blockAlign + 1) 0)]) := by
      refine ih (l.drop blockAlign) ?_
      rw [List.length_drop, hl]; ring_nf; omega
    rw [ingest] at ihd
    rw [ihd, ingestSpec_cons blockAlign l (by omega) hlen]
    simp only [getD_drop]
    have e1 : blockAlign + k * blockAlign = (k + 1) * blockAlign := by ring
    have e2 : blockAlign + (k * blockAlign + 1) = (k + 1) * blockAlign + 1 := by
      ring
    rw [e1, e2]
    rfl

theorem ingest_rem_one (blockAlign : Nat) (hbA : 2 ≤ blockAlign) :
    ∀ (k : Nat) (l : List Nat), l.length = k * blockAlign + 1 →
      ingest blockAlign l = none := by
  intro k
  induction k with
  | zero =>
    intro l hl
    simp only [Nat.zero_mul, Nat.zero_add] at hl
    match l, hl with
    | [a], _ =>
      rw [ingest, chunksOf_cons blockAlign [a] (by omega) (by simp),
        List.take_of_length_le (by simp; omega),
        List.drop_eq_nil_of_le (by simp; omega), chunksOf_nil]
      simp [ingestFrames, frameToSample_singleton]
  | succ k ih =>
    intro l hl
    have hlen : blockAlign ≤ l.length := by rw [hl]; nlinarith
    have hne : l ≠ [] := by
      intro h; rw [h] at hlen; simp at hlen; omega
    rw [ingest, chunksOf_cons blockAlign l (by omega) hne]
    have htk : 2 ≤ (l.take blockAlign).length := by
      rw [List.length_take]; omega
    rw [ingestFrames, frameToSample_of_two _ htk]
    have ihd : ingest blockAlign (l.drop blockAlign) = none := by
      refine ih (l.drop blockAlign) ?_
      rw [List.length_drop, hl]; ring_nf; omega
    rw [ingest] at ihd
    rw [ihd]
    rfl

theorem ingest_blockalign_one (l : List Nat) (hl : l ≠ []) :
    ingest 1 l = none := by
  match l, hl with
  | a :: as, _ =>
    rw [ingest, chunksOf_cons 1 (a :: as) (by omega) (by simp)]
    simp [List.take, ingestFrames, frameToSample_singleton]

theorem extractWindow_of_lt (s : List Int) (h : s.length < SIZE) :
    extractWindow s = none := by
  rw [extractWindow, if_pos h]

theorem extractWindow_of_le (s : List Int) (h : SIZE ≤ s.length) :
    extractWindow s =
      some (s.drop (s.length - SIZE), s.take (s.length - SIZE)) := by
  have hns : ¬ s.length < SIZE := by omega
  have h1 : (s.drop (s.length - SIZE)).take (s.length - SIZE + SIZE - (s.length - SIZE))
      = s.drop (s.length - SIZE) := by
    apply List.take_of_length_le
    rw [List.length_drop]
    omega
  have h2 : s.drop (s.length - SIZE + SIZE) = [] := by
    apply List.drop_eq_nil_of_le
    omega
  rw [extractWindow, if_neg hns]
  simp only [drainRange, h1, h2, List.append_nil]

theorem foldl_append_eq_join (acc : List α) (cs : List (List α)) :
    cs.foldl (fun a c => a ++ c) acc = acc ++ cs.flatten := by
  induction cs generalizing acc with
  | nil => simp
  | cons c cs ih => simp [List.foldl_cons, ih]

/-! ### Claim theorems -/

/-- Claim C1, counterexample: with 2049 samples queued (one more than
`SIZE = 2048`), a successful extraction leaves one sample in the queue, so
the queue does not "contain no samples at all" as the claim states.
`VecDeque::drain(skips..skips+SIZE)` removes only the drained range; the
`skips` oldest elements stay in the deque. -/
theorem extract_backlog_remains_cex :
    extractWindow (List.replicate 2049 (0 : Int)) =
      some (List.replicate 2048 (0 : Int), [(0 : Int)]) ∧
    ([(0 : Int)] : List Int) ≠ [] := by
  constructor
  · rw [extractWindow_of_le _ (by rw [List.length_replicate]; decide),
      List.length_replicate, List.drop_replicate, List.take_replicate]
    rfl
  · decide

/-- Claim C1, amended: when the queue holds more than `SIZE` samples, a
successful extraction drains exactly the `SIZE` newest samples; the
`skip = length - SIZE` oldest samples are NOT discarded — immediately after
the extraction the queue still contains exactly those `skip` oldest
samples, and in particular it is not empty. -/
theorem extract_drains_newest_keeps_oldest (s : List Int) (h : SIZE < s.length) :
    extractWindow s =
      some (s.drop (s.length - SIZE), s.take (s.length - SIZE)) ∧
    s.take (s.length - SIZE) ≠ [] := by
  refine ⟨extractWindow_of_le s (by omega), ?_⟩
  intro hnil
  rcases List.take_eq_nil_iff.mp hnil with h0 | h0
  · omega
  · rw [h0] at h
    simp [SIZE] at h

/-- Witness for the amended Claim C1 at the concrete queue of 2049 zeros. -/
theorem extract_drains_newest_keeps_oldest_witness :
    SIZE < (List.replicate 2049 (0 : Int)).length ∧
    (extractWindow (List.replicate 2049 (0 : Int)) =
      some ((List.replicate 2049 (0 : Int)).drop
          ((List.replicate 2049 (0 : Int)).length - SIZE),
        (List.replicate 2049 (0 : Int)).take
          ((List.replicate 2049 (0 : Int)).length - SIZE)) ∧
      (List.replicate 2049 (0 : Int)).take
        ((List.replicate 2049 (0 : Int)).length - SIZE) ≠ []) :=
  ⟨by rw [List.length_replicate]; decide,
    extract_drains_newest_keeps_oldest _ (by rw [List.length_replicate]; decide)⟩

/-- Claim C3 (confirmed): extraction with `SIZE = 2048` returns nothing iff
the queue holds fewer than `SIZE` samples; otherwise it returns exactly
`SIZE` samples equal, element for element and in order, to the last `SIZE`
elements of the queue before the call, and those elements are removed
(what remains is exactly the prefix that preceded them). -/
theorem extractWindow_iff_spec (s : List Int) :
    (extractWindow s = none ↔ s.length < SIZE) ∧
    (∀ w rest, extractWindow s = some (w, rest) →
      w = s.drop (s.length - SIZE) ∧ w.length = SIZE ∧
      rest = s.take (s.length - SIZE) ∧ rest ++ w = s) := by
  by_cases hlt : s.length < SIZE
  · refine ⟨by rw [extractWindow_of_lt s hlt]; simp [hlt], ?_⟩
    intro w rest hw
    rw [extractWindow_of_lt s hlt] at hw
    exact absurd hw (by simp)
  · refine ⟨?_, ?_⟩
    · rw [extractWindow_of_le s (by omega)]
      simp [hlt]
    · intro w rest hw
      rw [extractWindow_of_le s (by omega)] at hw
      simp only [Option.some_inj, Prod.mk.injEq] at hw
      obtain ⟨hw1, hw2⟩ := hw
      refine ⟨hw1.symm, ?_, hw2.symm, ?_⟩
      · rw [← hw1, List.length_drop]
        omega
      · rw [← hw1, ← hw2, List.take_append_drop]

/-- Witness for Claim C3 at a queue of exactly 2048 zeros: extraction
succeeds, returns the whole queue, and leaves it empty. -/
theorem extractWindow_iff_spec_witness :
    List.replicate 2048 (0 : Int) =
        (List.replicate 2048 (0 : Int)).drop
          ((List.replicate 2048 (0 : Int)).length - SIZE) ∧
      (List.replicate 2048 (0 : Int)).length = SIZE ∧
      ([] : List Int) =
        (List.replicate 2048 (0 : Int)).take
          ((List.replicate 2048 (0 : Int)).length - SIZE) ∧
      ([] : List Int) ++ List.replicate 2048 (0 : Int) =
        List.replicate 2048 (0 : Int) :=
  (extractWindow_iff_spec (List.replicate 2048 0)).2 (List.replicate 2048 0) []
    (by rw [extractWindow_of_le _ (by rw [List.length_replicate]; decide),
          List.length_replicate, List.drop_replicate, List.take_replicate]
        rfl)

/-- Claim C6 (confirmed): on a tick whose drain leaves fewer than
`SIZE = 2048` samples queued, `on_tick` returns early; the published
output `data` is exactly what it was before the tick (only the queue
grows). -/
theorem onTick_insufficient_preserves_data
    (spectrum : List Int → Nat → Nat → Int) (blockAlign sampleRate : Nat)
    (chunksIn : List (List Nat)) (app : AppState) (ns : List Int)
    (h1 : drainChunks blockAlign chunksIn = some ns)
    (h2 : (app.samples ++ ns).length < SIZE) :
    onTick spectrum blockAlign sampleRate chunksIn app =
      some { samples := app.samples ++ ns, data := app.data } := by
  unfold onTick
  rw [h1]
  show (if (app.samples ++ ns).length < SIZE then _ else _) = _
  rw [if_pos h2]

/-- Witness for Claim C6: one 4-byte chunk yields one sample, far below
2048, and the (empty) published data is untouched. -/
theorem onTick_insufficient_witness :
    drainChunks 4 [[1, 2, 3, 4]] = some [513] ∧
    (([] : List Int) ++ [513]).length < SIZE ∧
    onTick (fun _ _ _ => 0) 4 48000 [[1, 2, 3, 4]] ⟨[], []⟩ =
      some { samples := ([] : List Int) ++ [513], data := ([] : List (Nat × Int)) } :=
  ⟨by decide, by decide,
    onTick_insufficient_preserves_data _ 4 48000 _ ⟨[], []⟩ [513]
      (by decide) (by decide)⟩

/-- Claim C7 (confirmed): in every poll, the frames released equal the
frames acquired by `GetBuffer` in that same poll, the copy into an owned
buffer happens before `ReleaseBuffer`, the poll returns nothing exactly
when zero frames are available, a zero-frame poll acquires nothing, and a
successful poll returns an owned buffer of `stored_frames * block_align`
bytes whose copy event precedes the release event in the trace. -/
theorem get_buffer_protocol (blockAlign : Nat) (d : Device) :
    releasedFrames (get_buffer blockAlign d).2 =
      acquiredFrames (get_buffer blockAlign d).2 ∧
    copiesPrecedeReleases (get_buffer blockAlign d).2 false = true ∧
    ((get_buffer blockAlign d).1 = none ↔ d.padding = 0) ∧
    (d.padding = 0 → acquireCount (get_buffer blockAlign d).2 = 0) ∧
    (∀ b, (get_buffer blockAlign d).1 = some b →
      b.length = d.stored * blockAlign ∧
      (get_buffer blockAlign d).2 =
        [DevEv.getCurrentPadding d.padding, DevEv.getBuffer d.stored,
         DevEv.copy b, DevEv.releaseBuffer d.stored]) := by
  by_cases hp : d.padding = 0
  · rw [get_buffer, if_pos hp]
    refine ⟨rfl, rfl, by simp [hp], fun _ => rfl, ?_⟩
    intro b hb
    exact absurd hb (by simp)
  · rw [get_buffer, if_neg hp]
    refine ⟨rfl, rfl, by simp [hp], fun h => absurd h hp, ?_⟩
    intro b hb
    simp only [Option.some_inj] at hb
    subst hb
    exact ⟨by rw [List.length_map, List.length_range], rfl⟩

/-- Witness for Claim C7 at a concrete device with 3 frames pending, 2
frames stored and identity memory: the poll succeeds with 4 bytes and the
trace acquires and releases exactly 2 frames, copying in between. -/
theorem get_buffer_protocol_witness :
    (get_buffer 2 ⟨3, 2, fun i => i⟩).1 = some [0, 1, 2, 3] ∧
    (get_buffer 2 ⟨3, 2, fun i => i⟩).2 =
      [DevEv.getCurrentPadding 3, DevEv.getBuffer 2,
       DevEv.copy [0, 1, 2, 3], DevEv.releaseBuffer 2] :=
  ⟨by decide,
    ((get_buffer_protocol 2 ⟨3, 2, fun i => i⟩).2.2.2.2 [0, 1, 2, 3]
      (by decide)).2⟩

/-- Claim C8, counterexample: for a negotiated format whose `format_tag`
is 1 (plain PCM), the header written by the recording tool carries
`format_tag = 3` (`WAV_FORMAT_IEEE_FLOAT`), not the negotiated tag — the
source hardcodes the IEEE-float tag and ignores `WaveFormatEx.format_tag`.
So not all four header fields are taken from the negotiated format. -/
theorem record_format_tag_cex :
    (makeHeader ⟨1, 2, 48000, 384000, 8, 32, 22⟩).format_tag ≠
      (⟨1, 2, 48000, 384000, 8, 32, 22⟩ : WaveFormatEx).format_tag := by
  decide

/-- Claim C8, amended: the header's `channel_count`, `sample_rate` and
`bits_per_sample` are taken directly from the negotiated format, but
`format_tag` is hardcoded to `WAV_FORMAT_IEEE_FLOAT`; the payload is the
captured byte chunks concatenated in arrival order. -/
theorem record_header_payload (wf : WaveFormatEx) (chunks : List (List Nat)) :
    (makeHeader wf).format_tag = WAV_FORMAT_IEEE_FLOAT ∧
    (makeHeader wf).channels = wf.channels ∧
    (makeHeader wf).sample_rate = wf.samples_per_sec ∧
    (makeHeader wf).bits_per_sample = wf.bits_per_sample ∧
    capturePayload chunks = chunks.flatten :=
  ⟨rfl, rfl, rfl, rfl, by
    rw [capturePayload, foldl_append_eq_join, List.nil_append]⟩

/-- Claim C10, code_bug evidence: an iteration of the recording tool's
polling loop that finds zero frames ends immediately at the `continue` —
its event trace is just the poll, with no sleep at all.  The 100 µs sleep
is only executed on the data-bearing path, so an empty device buffer is
busy-waited on. -/
theorem capture_no_sleep_on_empty_poll :
    captureIteration 8 ⟨0, 4, fun i => i⟩ = [CapEv.poll 0] ∧
    CapEv.sleepMicros 100 ∉ captureIteration 8 ⟨0, 4, fun i => i⟩ ∧
    CapEv.sleepMicros 100 ∈ captureIteration 8 ⟨6, 4, fun i => i⟩ := by
  refine ⟨by decide, by decide, by decide⟩

/-- Claim C2, counterexample: a 3-byte chunk with `block_align = 4` does
not make ingestion report a framing error: `slice::chunks` simply yields
the 3-byte trailing partial frame, and its first two bytes are converted
into a sample (`i16FromBytes 10 20 = 5130`).  No error value of any kind
is produced. -/
theorem ingest_partial_no_error_cex :
    ([10, 20, 30] : List Nat).length % 4 ≠ 0 ∧
    ingest 4 [10, 20, 30] = some [5130] := ⟨by decide, by decide⟩

/-- Claim C2, amended: a chunk whose length is not a multiple of
`block_align` is not a reported framing error.  The trailing partial frame
is kept by `slice::chunks`: when it has at least two bytes it is decoded
into one extra sample from its first two bytes (on top of the
`length / block_align` full-frame samples), and when it has exactly one
byte the unchecked `frame[1]` access panics. -/
theorem ingest_partial_frame_behavior (blockAlign : Nat) (hbA : 2 ≤ blockAlign)
    (chunk : List Nat) :
    (2 ≤ chunk.length % blockAlign →
      ingest blockAlign chunk = some (ingestSpec blockAlign chunk ++
        [i16FromBytes (chunk.getD ((chunk.length / blockAlign) * blockAlign) 0)
          (chunk.getD ((chunk.length / blockAlign) * blockAlign + 1) 0)])) ∧
    (chunk.length % blockAlign = 1 → ingest blockAlign chunk = none) := by
  constructor
  · intro h2
    refine ingest_partial blockAlign hbA (chunk.length % blockAlign) h2
      (Nat.mod_lt _ (by omega)) (chunk.length / blockAlign) chunk ?_
    have hd := Nat.div_add_mod chunk.length blockAlign
    rw [Nat.mul_comm] at hd
    exact hd.symm
  · intro h1
    refine ingest_rem_one blockAlign hbA (chunk.length / blockAlign) chunk ?_
    have hd := Nat.div_add_mod chunk.length blockAlign
    rw [h1, Nat.mul_comm] at hd
    exact hd.symm

/-- Witness for the amended Claim C2 at the 3-byte chunk with
`block_align = 4`: the partial frame becomes the single sample 5130. -/
theorem ingest_partial_frame_witness :
    2 ≤ ([10, 20, 30] : List Nat).length % 4 ∧
    ingest 4 [10, 20, 30] = some (ingestSpec 4 [10, 20, 30] ++
      [i16FromBytes
        (([10, 20, 30] : List Nat).getD
          ((([10, 20, 30] : List Nat).length / 4) * 4) 0)
        (([10, 20, 30] : List Nat).getD
          ((([10, 20, 30] : List Nat).length / 4) * 4 + 1) 0)]) :=
  ⟨by decide,
    (ingest_partial_frame_behavior 4 (by omega) [10, 20, 30]).1 (by decide)⟩

/-- Claim C4, counterexample: with `block_align = 1` the chunk `[0, 0]` has
a length that is an exact multiple of `block_align`, yet ingestion does not
append `length / block_align = 2` samples — every 1-byte frame makes the
unchecked `frame[1]` access panic, so the tick dies instead. -/
theorem ingest_multiple_blockalign_one_cex :
    ([0, 0] : List Nat).length % 1 = 0 ∧
    ingest 1 [0, 0] = none ∧
    ingest 1 [0, 0] ≠ some (ingestSpec 1 [0, 0]) := ⟨by decide, by decide, by decide⟩

/-- Claim C4, amended: for `block_align ≥ 2` (so each frame really has a
first two bytes) and a chunk length that is an exact multiple of
`block_align`, ingestion appends exactly `length / block_align` samples in
arrival order, the `i`-th being bytes `i*block_align` and
`i*block_align + 1` of the chunk combined as a little-endian signed 16-bit
integer (exactly widened to floating point). -/
theorem ingest_exact_multiple (blockAlign : Nat) (hbA : 2 ≤ blockAlign)
    (chunk : List Nat) (h : chunk.length % blockAlign = 0) :
    ingest blockAlign chunk = some (ingestSpec blockAlign chunk) ∧
    (ingestSpec blockAlign chunk).length = chunk.length / blockAlign := by
  constructor
  · refine ingest_full blockAlign hbA (chunk.length / blockAlign) chunk ?_
    have hd := Nat.div_add_mod chunk.length blockAlign
    rw [h, Nat.add_zero, Nat.mul_comm] at hd
    exact hd.symm
  · rw [ingestSpec, List.length_map, List.length_range]

/-- Witness for the amended Claim C4 at an 8-byte chunk with
`block_align = 4`: two samples, 257 = `i16` of bytes (1,1) and
-1 = `i16` of bytes (255,255), in arrival order. -/
theorem ingest_exact_multiple_witness :
    ingest 4 [1, 1, 0, 0, 255, 255, 0, 0] =
      some (ingestSpec 4 [1, 1, 0, 0, 255, 255, 0, 0]) ∧
    (ingestSpec 4 [1, 1, 0, 0, 255, 255, 0, 0]).length = 2 :=
  ingest_exact_multiple 4 (by omega) [1, 1, 0, 0, 255, 255, 0, 0] (by decide)

/-- Claim C9 (confirmed): a tick ingesting a chunk whose length leaves
remainder 1 modulo `block_align` panics with an out-of-bounds index while
converting the final 1-byte partial frame (modelled as `none`, not an
error value), and for `block_align = 1` any non-empty chunk panics the
same way on its first frame. -/
theorem onTick_panics_on_trailing_byte
    (spectrum : List Int → Nat → Nat → Int) (blockAlign sampleRate : Nat)
    (chunk : List Nat) (app : AppState) :
    (2 ≤ blockAlign → chunk.length % blockAlign = 1 →
      onTick spectrum blockAlign sampleRate [chunk] app = none) ∧
    (chunk ≠ [] → onTick spectrum 1 sampleRate [chunk] app = none) := by
  constructor
  · intro hbA hmod
    have hing : ingest blockAlign chunk = none := by
      refine ingest_rem_one blockAlign hbA (chunk.length / blockAlign) chunk ?_
      have hd := Nat.div_add_mod chunk.length blockAlign
      rw [hmod, Nat.mul_comm] at hd
      exact hd.symm
    have hdc : drainChunks blockAlign [chunk] = none := by
      simp [drainChunks, hing]
    unfold onTick
    rw [hdc]
  · intro hne
    have hing : ingest 1 chunk = none := ingest_blockalign_one chunk hne
    have hdc : drainChunks 1 [chunk] = none := by
      simp [drainChunks, hing]
    unfold onTick
    rw [hdc]

/-- Witness for Claim C9: a 5-byte chunk with `block_align = 4`
(remainder 1) kills the tick, and so does a 1-byte chunk with
`block_align = 1`. -/
theorem onTick_panics_witness :
    (([10, 20, 30, 40, 50] : List Nat).length % 4 = 1 ∧
      onTick (fun _ _ _ => 0) 4 48000 [[10, 20, 30, 40, 50]] ⟨[], []⟩ = none) ∧
    (([0] : List Nat) ≠ [] ∧
      onTick (fun _ _ _ => 0) 1 48000 [[0]] ⟨[], []⟩ = none) :=
  ⟨⟨by decide,
    (onTick_panics_on_trailing_byte _ 4 48000 [10, 20, 30, 40, 50] ⟨[], []⟩).1
      (by omega) (by decide)⟩,
   ⟨by decide,
    (onTick_panics_on_trailing_byte _ 1 48000 [0] ⟨[], []⟩).2 (by decide)⟩⟩

end Chryth
